import Mathlib

/-!
Verification of the incremental text-rewriting engine of `content.js`
(the GoM-Rename browser extension content script).

The script consists of three parts, each embedded below from the source:

* the Rewrite Engine: `originalValue.replace(SEARCH_REGEX, TEXT_TO_REPLACE_WITH)`
  where `SEARCH_REGEX = new RegExp(escape("Gulf of America"), 'gi')`.
  Since `"Gulf of America"` contains no regex metacharacter, the escaped
  pattern is the literal phrase, matched case-insensitively (ASCII case
  folding: without the `u` flag, a non-ASCII character never canonicalizes
  to an ASCII pattern character) and globally, i.e. all non-overlapping
  occurrences are replaced left to right.  `rewriteList` below is that
  scan: at each position, if a case-insensitive occurrence of the phrase
  starts there, emit the replacement and skip past the occurrence,
  otherwise emit the character and move one position right.

* the Eligibility Filter `shouldSkipNode`: walk the parent chain of a text
  node while the current node is an ELEMENT node; skip if some ancestor's
  upper-cased tag is in `EXCLUDED_TAGS` or the ancestor `isContentEditable`.

* the Mutation Coordinator: `processNodes` (a guarded TreeWalker sweep:
  collect all text descendants of the root, then rewrite each), the
  MutationObserver callback (childList records: `processNodes` on every
  added node; characterData records: `checkAndReplaceInTextNode` on the
  target), and `checkAndReplaceInTextNode` itself (filter, rewrite, write
  back only when the value changed).

Strings are modelled as `List Char` (`String` in Lean is a structure
holding exactly that list); the live DOM is modelled by the `DomTree`
type, with nodes addressed by child-index paths.
-/

/-- The constant `TEXT_TO_FIND` of content.js, as a character list. -/
def searchPhrase : List Char := "Gulf of America".data

/-- The constant `TEXT_TO_REPLACE_WITH` of content.js, as a character list. -/
def replacePhrase : List Char := "Gulf of Mexico".data

/-- Case-insensitive character match of an input character `c` against a
pattern character `p`, as the `i` flag (without `u`) canonicalizes: the
pattern here is pure ASCII, and a non-ASCII input character never
canonicalizes to an ASCII character, so `c` matches iff it is ASCII and
upper-cases to the same character as `p`. -/
def ciEq (c p : Char) : Bool := c.toNat < 128 && (c.toUpper == p.toUpper)

/-- Does the pattern `p` match case-insensitively at the very start of `s`? -/
def isPrefixCI : List Char → List Char → Bool
  | [], _ => true
  | _ :: _, [] => false
  | p :: ps, c :: cs => ciEq c p && isPrefixCI ps cs

/-- Does `s` contain a case-insensitive occurrence of `searchPhrase`
anywhere (i.e. would `SEARCH_REGEX` find a match)? -/
def hasMatchCI : List Char → Bool
  | [] => false
  | c :: cs => isPrefixCI searchPhrase (c :: cs) || hasMatchCI cs

/-- Is `u` exactly a case-insensitive variant of the search phrase? -/
def matchesPhraseCI (u : List Char) : Bool :=
  (u.length == searchPhrase.length) && isPrefixCI searchPhrase u

/-- The global-replace scan with explicit fuel (one unit per character
position), so that the definition is structurally recursive and computes
by kernel reduction.  With `fuel ≥ l.length` the fuel never runs out. -/
def rewriteFuel : Nat → List Char → List Char
  | _, [] => []
  | 0, l => l
  | fuel + 1, c :: cs =>
    if isPrefixCI searchPhrase (c :: cs) then
      replacePhrase ++ rewriteFuel fuel (cs.drop 14)
    else
      c :: rewriteFuel fuel cs

/-- The Rewrite Engine on character lists:
`originalValue.replace(SEARCH_REGEX, TEXT_TO_REPLACE_WITH)` of
content.js line 49.  The search phrase has 15 characters, so after a
match at `c :: cs` the scan continues at `cs.drop 14`. -/
def rewriteList (l : List Char) : List Char := rewriteFuel l.length l

/-- The Rewrite Engine on `String`. -/
def rewriteStr (s : String) : String := String.mk (rewriteList s.data)

/-- Specification relation for the Rewrite Engine, written from the
spec's words ("returns a new string in which every non-overlapping
case-insensitive occurrence of the phrase is replaced", leftmost first):
a position either starts no occurrence and its character is kept, or it
starts an occurrence `u` of the phrase, which is replaced by
`replacePhrase` and consumed whole (so occurrences never overlap). -/
inductive RewriteSpec : List Char → List Char → Prop where
  | nil : RewriteSpec [] []
  | keep (c : Char) (cs t : List Char) :
      isPrefixCI searchPhrase (c :: cs) = false →
      RewriteSpec cs t → RewriteSpec (c :: cs) (c :: t)
  | repl (u cs t : List Char) :
      matchesPhraseCI u = true →
      RewriteSpec cs t → RewriteSpec (u ++ cs) (replacePhrase ++ t)

theorem searchPhrase_eq : searchPhrase = 'G' :: "ulf of America".data := rfl

theorem searchPhrase_length : searchPhrase.length = 15 := rfl

theorem replacePhrase_length : replacePhrase.length = 14 := rfl

theorem isPrefixCI_length_le : ∀ p s : List Char, isPrefixCI p s = true → p.length ≤ s.length := by
  intro p
  induction p with
  | nil => intro s _; simp
  | cons q ps ih =>
    intro s h
    cases s with
    | nil => simp [isPrefixCI] at h
    | cons c cs =>
      simp only [isPrefixCI, Bool.and_eq_true] at h
      simpa using ih cs h.2

theorem isPrefixCI_false_of_mismatch :
    ∀ v p t : List Char, ((v.zip p).any fun q => ! ciEq q.1 q.2) = true →
      isPrefixCI p (v ++ t) = false := by
  intro v
  induction v with
  | nil => intro p t h; simp at h
  | cons c v2 ih =>
    intro p t h
    cases p with
    | nil => simp at h
    | cons q ps =>
      simp only [List.zip_cons_cons, List.any_cons, Bool.or_eq_true] at h
      simp only [List.cons_append, isPrefixCI]
      rcases h with h | h
      · simp [show ciEq c q = false from by simpa using h]
      · cases hq : ciEq c q
        · simp
        · simpa [hq] using ih ps t h

/-- At every offset inside `u`, matching the search phrase already fails
inside `u` itself (before reaching whatever follows `u`). -/
def allOffsetsBlocked : List Char → Bool
  | [] => true
  | c :: cs => (((c :: cs).zip searchPhrase).any fun q => ! ciEq q.1 q.2) && allOffsetsBlocked cs

theorem allOffsetsBlocked_replacePhrase : allOffsetsBlocked replacePhrase = true := by decide

theorem hasMatchCI_append_of_blocked :
    ∀ u t : List Char, allOffsetsBlocked u = true → hasMatchCI (u ++ t) = hasMatchCI t := by
  intro u
  induction u with
  | nil => intro t _; rfl
  | cons c u2 ih =>
    intro t h
    simp only [allOffsetsBlocked, Bool.and_eq_true] at h
    simp only [List.cons_append, hasMatchCI]
    have hpre : isPrefixCI searchPhrase ((c :: u2) ++ t) = false :=
      isPrefixCI_false_of_mismatch (c :: u2) searchPhrase t h.1
    simp only [List.cons_append] at hpre
    simp only [List.append_eq]
    rw [hpre, ih t h.2]
    simp

/-- Every nonempty proper suffix of the search phrase mismatches the
replacement phrase within the replacement phrase itself: so no
occurrence of the phrase can begin inside an emitted replacement. -/
theorem replaceBlocksTail : ∀ p : List Char, p <:+ searchPhrase → p ≠ searchPhrase → p ≠ [] →
    ((replacePhrase.zip p).any fun q => ! ciEq q.1 q.2) = true := by
  have hall : ∀ p ∈ searchPhrase.tails,
      p = searchPhrase ∨ p = [] ∨ ((replacePhrase.zip p).any fun q => ! ciEq q.1 q.2) = true := by
    decide
  intro p hsuf hne hnil
  rcases hall p ((List.mem_tails p searchPhrase).mpr hsuf) with h | h | h
  · exact absurd h hne
  · exact absurd h hnil
  · exact h

/-- Rewriting a suffix of the input cannot create a match of a proper
suffix `p` of the search phrase where none was: the scan only ever
replaces whole occurrences by `replacePhrase`, whose characters block
every proper suffix of the phrase immediately. -/
theorem isPrefixCI_rewriteFuel :
    ∀ (fuel : Nat) (l p : List Char), l.length ≤ fuel → p <:+ searchPhrase →
      p ≠ searchPhrase → isPrefixCI p l = false → isPrefixCI p (rewriteFuel fuel l) = false := by
  intro fuel
  induction fuel with
  | zero =>
    intro l p hl _ _ hp
    cases l with
    | nil => simpa [rewriteFuel] using hp
    | cons c cs => simp at hl
  | succ n ih =>
    intro l p hl hsuf hne hp
    cases l with
    | nil => simpa [rewriteFuel] using hp
    | cons c cs =>
      have hcs : cs.length ≤ n := by simpa using hl
      by_cases hm : isPrefixCI searchPhrase (c :: cs) = true
      · rw [show rewriteFuel (n + 1) (c :: cs)
            = replacePhrase ++ rewriteFuel n (cs.drop 14) from by simp [rewriteFuel, hm]]
        cases p with
        | nil => simp [isPrefixCI] at hp
        | cons q ps =>
          exact isPrefixCI_false_of_mismatch _ _ _ (replaceBlocksTail _ hsuf hne (by simp))
      · have hm2 : isPrefixCI searchPhrase (c :: cs) = false := by simpa using hm
        rw [show rewriteFuel (n + 1) (c :: cs) = c :: rewriteFuel n cs from by
          simp [rewriteFuel, hm2]]
        cases p with
        | nil => simp [isPrefixCI] at hp
        | cons q ps =>
          simp only [isPrefixCI] at hp ⊢
          cases hq : ciEq c q
          · simp
          · simp only [hq, Bool.true_and] at hp ⊢
            have hsuf2 : ps <:+ searchPhrase := (List.suffix_cons q ps).trans hsuf
            have hne2 : ps ≠ searchPhrase := by
              have hlt : ps.length < searchPhrase.length := by
                have := hsuf.length_le
                simp only [List.length_cons] at this
                omega
              intro hcontra
              rw [hcontra] at hlt
              omega
            exact ih cs ps hcs hsuf2 hne2 hp

/-- The output of the Rewrite Engine contains no case-insensitive
occurrence of the search phrase: every occurrence of the input was
replaced, and replacements never create new occurrences, not even
spanning the boundaries between replaced and kept segments. -/
theorem hasMatchCI_rewriteFuel :
    ∀ (fuel : Nat) (l : List Char), l.length ≤ fuel → hasMatchCI (rewriteFuel fuel l) = false := by
  have expand : ∀ (c : Char) (X : List Char),
      isPrefixCI searchPhrase (c :: X) = (ciEq c 'G' && isPrefixCI ("ulf of America".data) X) := by
    intro c X
    rw [searchPhrase_eq]
    rfl
  intro fuel
  induction fuel with
  | zero =>
    intro l hl
    cases l with
    | nil => rfl
    | cons c cs => simp at hl
  | succ n ih =>
    intro l hl
    cases l with
    | nil => rfl
    | cons c cs =>
      have hcs : cs.length ≤ n := by simpa using hl
      by_cases hm : isPrefixCI searchPhrase (c :: cs) = true
      · rw [show rewriteFuel (n + 1) (c :: cs)
            = replacePhrase ++ rewriteFuel n (cs.drop 14) from by simp [rewriteFuel, hm]]
        rw [hasMatchCI_append_of_blocked _ _ allOffsetsBlocked_replacePhrase]
        have hdrop : (cs.drop 14).length ≤ n := by
          rw [List.length_drop]
          omega
        exact ih _ hdrop
      · have hm2 : isPrefixCI searchPhrase (c :: cs) = false := by simpa using hm
        rw [show rewriteFuel (n + 1) (c :: cs) = c :: rewriteFuel n cs from by
          simp [rewriteFuel, hm2]]
        simp only [hasMatchCI]
        rw [ih cs hcs]
        simp only [Bool.or_false]
        rw [expand] at hm2 ⊢
        cases hg : ciEq c 'G'
        · simp
        · simp only [hg, Bool.true_and] at hm2 ⊢
          have hsuf : ("ulf of America".data) <:+ searchPhrase := by
            rw [searchPhrase_eq]
            exact List.suffix_cons _ _
          have hne : ("ulf of America".data) ≠ searchPhrase := by decide
          exact isPrefixCI_rewriteFuel n cs _ hcs hsuf hne hm2

/-- When the input holds no occurrence of the phrase, the scan keeps
every character: the Engine returns the input unchanged. -/
theorem rewriteFuel_of_noMatch :
    ∀ (fuel : Nat) (l : List Char), l.length ≤ fuel → hasMatchCI l = false →
      rewriteFuel fuel l = l := by
  intro fuel
  induction fuel with
  | zero =>
    intro l hl _
    cases l with
    | nil => rfl
    | cons c cs => simp at hl
  | succ n ih =>
    intro l hl hm
    cases l with
    | nil => rfl
    | cons c cs =>
      simp only [hasMatchCI, Bool.or_eq_false_iff] at hm
      have hcs : cs.length ≤ n := by simpa using hl
      rw [show rewriteFuel (n + 1) (c :: cs) = c :: rewriteFuel n cs from by
        simp [rewriteFuel, hm.1]]
      rw [ih cs hcs hm.2]

theorem rewriteFuel_length_le :
    ∀ (fuel : Nat) (l : List Char), l.length ≤ fuel →
      (rewriteFuel fuel l).length ≤ l.length := by
  intro fuel
  induction fuel with
  | zero =>
    intro l hl
    cases l with
    | nil => simp [rewriteFuel]
    | cons c cs => simp at hl
  | succ n ih =>
    intro l hl
    cases l with
    | nil => simp [rewriteFuel]
    | cons c cs =>
      have hcs : cs.length ≤ n := by simpa using hl
      by_cases hm : isPrefixCI searchPhrase (c :: cs) = true
      · rw [show rewriteFuel (n + 1) (c :: cs)
            = replacePhrase ++ rewriteFuel n (cs.drop 14) from by simp [rewriteFuel, hm]]
        have hlong : 15 ≤ cs.length + 1 := by
          have := isPrefixCI_length_le searchPhrase (c :: cs) hm
          simpa [searchPhrase_length] using this
        have hdrop : (cs.drop 14).length ≤ n := by
          rw [List.length_drop]
          omega
        have := ih (cs.drop 14) hdrop
        simp only [List.length_append, replacePhrase_length, List.length_cons]
        rw [List.length_drop] at this
        omega
      · have hm2 : isPrefixCI searchPhrase (c :: cs) = false := by simpa using hm
        rw [show rewriteFuel (n + 1) (c :: cs) = c :: rewriteFuel n cs from by
          simp [rewriteFuel, hm2]]
        have := ih cs hcs
        simp only [List.length_cons]
        omega

/-- When the input holds an occurrence, the output is strictly shorter
(each replacement shortens the text by one character), hence different. -/
theorem rewriteFuel_length_lt :
    ∀ (fuel : Nat) (l : List Char), l.length ≤ fuel → hasMatchCI l = true →
      (rewriteFuel fuel l).length < l.length := by
  intro fuel
  induction fuel with
  | zero =>
    intro l hl hm
    cases l with
    | nil => simp [hasMatchCI] at hm
    | cons c cs => simp at hl
  | succ n ih =>
    intro l hl hm
    cases l with
    | nil => simp [hasMatchCI] at hm
    | cons c cs =>
      have hcs : cs.length ≤ n := by simpa using hl
      by_cases hp : isPrefixCI searchPhrase (c :: cs) = true
      · rw [show rewriteFuel (n + 1) (c :: cs)
            = replacePhrase ++ rewriteFuel n (cs.drop 14) from by simp [rewriteFuel, hp]]
        have hlong : 15 ≤ cs.length + 1 := by
          have := isPrefixCI_length_le searchPhrase (c :: cs) hp
          simpa [searchPhrase_length] using this
        have hdrop : (cs.drop 14).length ≤ n := by
          rw [List.length_drop]
          omega
        have := rewriteFuel_length_le n (cs.drop 14) hdrop
        simp only [List.length_append, replacePhrase_length, List.length_cons]
        rw [List.length_drop] at this
        omega
      · have hp2 : isPrefixCI searchPhrase (c :: cs) = false := by simpa using hp
        rw [show rewriteFuel (n + 1) (c :: cs) = c :: rewriteFuel n cs from by
          simp [rewriteFuel, hp2]]
        simp only [hasMatchCI, hp2, Bool.false_or] at hm
        have := ih cs hcs hm
        simp only [List.length_cons]
        omega

theorem isPrefixCI_take :
    ∀ p s : List Char, isPrefixCI p s = true →
      (s.take p.length).length = p.length ∧ isPrefixCI p (s.take p.length) = true := by
  intro p
  induction p with
  | nil => intro s _; simp [isPrefixCI]
  | cons q ps ih =>
    intro s h
    cases s with
    | nil => simp [isPrefixCI] at h
    | cons c cs =>
      simp only [isPrefixCI, Bool.and_eq_true] at h
      have := ih cs h.2
      simp only [List.length_cons, List.take_succ_cons, isPrefixCI, Bool.and_eq_true]
      exact ⟨by omega, h.1, this.2⟩

theorem isPrefixCI_append_left :
    ∀ p u t : List Char, isPrefixCI p u = true → isPrefixCI p (u ++ t) = true := by
  intro p
  induction p with
  | nil => intro u t _; rfl
  | cons q ps ih =>
    intro u t h
    cases u with
    | nil => simp [isPrefixCI] at h
    | cons c cs =>
      simp only [isPrefixCI, Bool.and_eq_true] at h
      simp only [List.cons_append, isPrefixCI, Bool.and_eq_true]
      exact ⟨h.1, ih cs t h.2⟩

/-- The scan refines the specification relation: the output of the
Engine keeps every non-matching position and replaces every leftmost
occurrence, non-overlapping, by the replacement phrase. -/
theorem rewriteSpec_rewriteFuel :
    ∀ (fuel : Nat) (l : List Char), l.length ≤ fuel → RewriteSpec l (rewriteFuel fuel l) := by
  intro fuel
  induction fuel with
  | zero =>
    intro l hl
    cases l with
    | nil => exact RewriteSpec.nil
    | cons c cs => simp at hl
  | succ n ih =>
    intro l hl
    cases l with
    | nil => exact RewriteSpec.nil
    | cons c cs =>
      have hcs : cs.length ≤ n := by simpa using hl
      by_cases hm : isPrefixCI searchPhrase (c :: cs) = true
      · rw [show rewriteFuel (n + 1) (c :: cs)
            = replacePhrase ++ rewriteFuel n (cs.drop 14) from by simp [rewriteFuel, hm]]
        have htake := isPrefixCI_take searchPhrase (c :: cs) hm
        have hphrase : matchesPhraseCI ((c :: cs).take searchPhrase.length) = true := by
          simp only [matchesPhraseCI, Bool.and_eq_true]
          exact ⟨by simp [htake.1], htake.2⟩
        have hdec : (c :: cs) = (c :: cs).take searchPhrase.length
            ++ (c :: cs).drop searchPhrase.length :=
          (List.take_append_drop _ _).symm
        have hdropeq : (c :: cs).drop searchPhrase.length = cs.drop 14 := by
          rw [searchPhrase_length]
          exact List.drop_succ_cons ..
        have hdrop : (cs.drop 14).length ≤ n := by
          rw [List.length_drop]
          omega
        have hrest : RewriteSpec (cs.drop 14) (rewriteFuel n (cs.drop 14)) := ih _ hdrop
        rw [← hdropeq] at hrest
        have := RewriteSpec.repl ((c :: cs).take searchPhrase.length)
          ((c :: cs).drop searchPhrase.length) _ hphrase hrest
        rw [← hdec, hdropeq] at this
        exact this
      · have hm2 : isPrefixCI searchPhrase (c :: cs) = false := by simpa using hm
        rw [show rewriteFuel (n + 1) (c :: cs) = c :: rewriteFuel n cs from by
          simp [rewriteFuel, hm2]]
        exact RewriteSpec.keep c cs _ hm2 (ih cs hcs)

/-- A string has a match exactly when it splits as some prefix, a
case-insensitive variant of the phrase, and a remainder. -/
theorem hasMatchCI_iff_parts :
    ∀ l : List Char, hasMatchCI l = true ↔
      ∃ a u b, l = a ++ u ++ b ∧ matchesPhraseCI u = true := by
  intro l
  constructor
  · induction l with
    | nil => intro h; simp [hasMatchCI] at h
    | cons c cs ih =>
      intro h
      simp only [hasMatchCI, Bool.or_eq_true] at h
      rcases h with h | h
      · refine ⟨[], (c :: cs).take searchPhrase.length, (c :: cs).drop searchPhrase.length, ?_, ?_⟩
        · simp [List.take_append_drop]
        · have htake := isPrefixCI_take searchPhrase (c :: cs) h
          simp only [matchesPhraseCI, Bool.and_eq_true]
          exact ⟨by simp [htake.1], htake.2⟩
      · obtain ⟨a, u, b, hl, hu⟩ := ih h
        exact ⟨c :: a, u, b, by simp [hl], hu⟩
  · rintro ⟨a, u, b, hl, hu⟩
    subst hl
    induction a with
    | nil =>
      cases u with
      | nil => simp [matchesPhraseCI, searchPhrase_length] at hu
      | cons x xs =>
        simp only [matchesPhraseCI, Bool.and_eq_true] at hu
        have := isPrefixCI_append_left searchPhrase (x :: xs) b hu.2
        simp only [List.nil_append, List.cons_append, hasMatchCI, Bool.or_eq_true]
        left
        simpa using this
    | cons c a2 iha =>
      simp only [List.cons_append, hasMatchCI, Bool.or_eq_true]
      right
      simpa using iha

theorem hasMatchCI_rewriteList (l : List Char) : hasMatchCI (rewriteList l) = false :=
  hasMatchCI_rewriteFuel l.length l (le_refl _)

theorem rewriteList_of_noMatch (l : List Char) (h : hasMatchCI l = false) : rewriteList l = l :=
  rewriteFuel_of_noMatch l.length l (le_refl _) h

theorem rewriteList_idem (l : List Char) : rewriteList (rewriteList l) = rewriteList l :=
  rewriteList_of_noMatch _ (hasMatchCI_rewriteList l)

theorem rewriteStr_idem (s : String) : rewriteStr (rewriteStr s) = rewriteStr s := by
  show String.mk (rewriteList (String.mk (rewriteList s.data)).data) = String.mk (rewriteList s.data)
  rw [show (String.mk (rewriteList s.data)).data = rewriteList s.data from rfl, rewriteList_idem]

theorem rewriteList_ne_of_hasMatch (l : List Char) (h : hasMatchCI l = true) :
    rewriteList l ≠ l := by
  intro he
  have := rewriteFuel_length_lt l.length l (le_refl _) h
  rw [show rewriteFuel l.length l = rewriteList l from rfl, he] at this
  omega

theorem rewriteSpec_rewriteList (l : List Char) : RewriteSpec l (rewriteList l) :=
  rewriteSpec_rewriteFuel l.length l (le_refl _)

theorem rewriteList_eq_self_iff (l : List Char) : rewriteList l = l ↔ hasMatchCI l = false := by
  constructor
  · intro h
    cases hm : hasMatchCI l
    · rfl
    · exact absurd h (rewriteList_ne_of_hasMatch l hm)
  · exact rewriteList_of_noMatch l

/-- The constant `EXCLUDED_TAGS` of content.js lines 12-15 ('PRE' is
commented out in the source and hence absent). -/
def EXCLUDED_TAGS : List String :=
  ["SCRIPT", "STYLE", "NOSCRIPT", "TEXTAREA", "INPUT", "IFRAME", "CANVAS", "CODE", "SVG", "MATH"]

/-- Character-wise ASCII upper-casing, embedding `tagName.toUpperCase()`
as applied to DOM tag names (which are ASCII). -/
def upcase (s : String) : String := String.mk (s.data.map Char.toUpper)

/-- The Eligibility Filter `shouldSkipNode` of content.js lines 23-37.
The argument is the chain of element ancestors of a text node, nearest
parent first, as pairs `(tagName, isContentEditable)`; the chain ends
where the `while` loop of the source ends, at the first ancestor that is
missing (`parentNode` null) or not an ELEMENT node.  Returns `true`
(skip) at the first ancestor whose upper-cased tag is in
`EXCLUDED_TAGS` or which is contentEditable, `false` if the walk
exhausts the chain. -/
def shouldSkipNode : List (String × Bool) → Bool
  | [] => false
  | e :: rest =>
    if EXCLUDED_TAGS.contains (upcase e.1) then true
    else if e.2 then true
    else shouldSkipNode rest

/-- The same upward walk instrumented with fuel: one unit of fuel is one
iteration of the `while` loop of `shouldSkipNode`, and `none` means the
walk did not finish within the given number of steps.  Used to state
that the walk terminates after at most `chain.length` steps. -/
def shouldSkipNodeFuel : Nat → List (String × Bool) → Option Bool
  | _, [] => some false
  | 0, _ :: _ => none
  | fuel + 1, e :: rest =>
    if EXCLUDED_TAGS.contains (upcase e.1) then some true
    else if e.2 then some true
    else shouldSkipNodeFuel fuel rest

/-- The document tree: element nodes carry a tag name, their
`isContentEditable` flag and a child list; text and comment nodes carry
their `nodeValue` string.  Text and comment nodes are the CharacterData
nodes: a characterData mutation record can target either kind, while
the TreeWalker sweep (`NodeFilter.SHOW_TEXT`) visits text nodes only. -/
inductive DomTree where
  | element (tag : String) (editable : Bool) (children : List DomTree)
  | text (value : String)
  | comment (value : String)

/-- The shape of a document tree: everything except the values of its
CharacterData nodes (tags, editability flags, node kinds, parent/child
structure).  Operations of the script never change the shape. -/
inductive DomShape where
  | element (tag : String) (editable : Bool) (children : List DomShape)
  | text
  | comment

mutual

def shapeOf : DomTree → DomShape
  | DomTree.element tag ed cs => DomShape.element tag ed (shapeOfList cs)
  | DomTree.text _ => DomShape.text
  | DomTree.comment _ => DomShape.comment

def shapeOfList : List DomTree → List DomShape
  | [] => []
  | c :: cs => shapeOf c :: shapeOfList cs

end

/-- The `i`-th child of a node (`childNodes[i]`); only elements have
children. -/
def childAt : DomTree → Nat → Option DomTree
  | DomTree.element _ _ cs, i => cs[i]?
  | _, _ => none

/-- The node reached from `t` by the child-index path `p`. -/
def getAt : DomTree → List Nat → Option DomTree
  | t, [] => some t
  | t, i :: p =>
    match childAt t i with
    | some c => getAt c p
    | none => none

/-- The `nodeValue` of the node at `p`: a string for CharacterData
nodes (text, comment), `none` for elements (whose `nodeValue` is null)
and for invalid paths. -/
def valueAt (d : DomTree) (p : List Nat) : Option String :=
  match getAt d p with
  | some (DomTree.text v) => some v
  | some (DomTree.comment v) => some v
  | _ => none

/-- Is the node at `p` a text node? -/
def isTextAt (d : DomTree) (p : List Nat) : Bool :=
  match getAt d p with
  | some (DomTree.text _) => true
  | _ => false

/-- The assignment `textNode.nodeValue = newValue`: replaces the value
of the CharacterData node at `q`; assigning `nodeValue` on an element
is a no-op, as in the DOM, and an invalid path changes nothing. -/
def setNodeValueAt : DomTree → List Nat → String → DomTree
  | DomTree.text _, [], s => DomTree.text s
  | DomTree.comment _, [], s => DomTree.comment s
  | t, [], _ => t
  | DomTree.element tag ed cs, i :: p, s =>
    match cs[i]? with
    | some c => DomTree.element tag ed (cs.set i (setNodeValueAt c p s))
    | none => DomTree.element tag ed cs
  | t, _ :: _, _ => t

/-- The element ancestors of the node at path `p` inside `d`, nearest
parent first — the chain the `while` loop of `shouldSkipNode` walks
before it leaves the modelled tree.  (Every proper ancestor inside the
tree is an element, since only elements have children.) -/
def innerChain : DomTree → List Nat → List (String × Bool)
  | _, [] => []
  | DomTree.element tag ed cs, i :: p =>
    match cs[i]? with
    | some c => innerChain c p ++ [(tag, ed)]
    | none => []
  | _, _ :: _ => []

mutual

def allTextPaths : DomTree → List (List Nat)
  | DomTree.text _ => [[]]
  | DomTree.comment _ => []
  | DomTree.element _ _ cs => allTextPathsList cs 0

def allTextPathsList : List DomTree → Nat → List (List Nat)
  | [], _ => []
  | c :: cs, i => (allTextPaths c).map (fun r => i :: r) ++ allTextPathsList cs (i + 1)

end

/-- The nodes a `TreeWalker(root, NodeFilter.SHOW_TEXT)` yields through
`nextNode()`: all text-node descendants of `root` in document order.
`nextNode()` never returns the walker's root itself, so a text-node
root yields nothing. -/
def walkerTextPaths : DomTree → List (List Nat)
  | DomTree.element _ _ cs => allTextPathsList cs 0
  | _ => []

/-- The guard of content.js lines 64-69: a root that is itself an
element with an excluded upper-cased tag, or contentEditable, is not
processed at all. -/
def rootExcluded : DomTree → Bool
  | DomTree.element tag ed _ =>
    EXCLUDED_TAGS.contains (upcase tag) || ed
  | _ => false

/-- `checkAndReplaceInTextNode` of content.js lines 43-54 applied to the
node at path `q` of the document `d`.  `outer` is the chain of element
ancestors above the modelled tree's root (the walk of `shouldSkipNode`
continues past the root's parent).  The filter runs first; then the
Engine; the write happens only when the new value differs. -/
def checkAndReplaceAt (outer : List (String × Bool)) (d : DomTree) (q : List Nat) : DomTree :=
  match valueAt d q with
  | none => d
  | some originalValue =>
    if shouldSkipNode (innerChain d q ++ outer) then d
    else
      if rewriteStr originalValue ≠ originalValue then
        setNodeValueAt d q (rewriteStr originalValue)
      else d

/-- The collection phase of `processNodes` (content.js lines 78-83):
all nodes the TreeWalker rooted at `q` yields, as paths in the whole
document, in document order, gathered before any modification. -/
def collectNodes (doc : DomTree) (q : List Nat) : List (List Nat) :=
  match getAt doc q with
  | some sub => (walkerTextPaths sub).map (fun r => q ++ r)
  | none => []

/-- `processNodes` of content.js lines 60-86 on the subtree rooted at
path `q`: guard on the root element, collect every text descendant,
then apply `checkAndReplaceInTextNode` to each collected node. -/
def processNodesAt (outer : List (String × Bool)) (doc : DomTree) (q : List Nat) : DomTree :=
  match getAt doc q with
  | none => doc
  | some sub =>
    if rootExcluded sub then doc
    else List.foldl (fun d pth => checkAndReplaceAt outer d pth) doc (collectNodes doc q)

/-- `processNodes` with its nullable argument: `processNodes(null)` and
`processNodes(undefined)` (modelled by `none`) return immediately at
the `if (!rootNode) return;` of line 61. -/
def processNodes (outer : List (String × Bool)) (doc : DomTree) :
    Option (List Nat) → DomTree
  | none => doc
  | some q => processNodesAt outer doc q

/-- One MutationObserver record: either a childList record carrying the
paths of its `addedNodes`, or a characterData record carrying the path
of its target CharacterData node. -/
inductive MutationRecord where
  | childList (addedPaths : List (List Nat))
  | characterData (target : List Nat)

/-- The body of the observer callback's `for` loop (content.js lines
105-115) for one record: childList records run `processNodes` on every
added node; characterData records run `checkAndReplaceInTextNode` on
the record's target. -/
def applyMutation (outer : List (String × Bool)) (doc : DomTree) : MutationRecord → DomTree
  | MutationRecord.childList added =>
    List.foldl (fun d q => processNodesAt outer d q) doc added
  | MutationRecord.characterData q => checkAndReplaceAt outer doc q

/-- The MutationObserver callback of content.js lines 104-116: the `for`
loop over one delivered batch of mutation records. -/
def observerCallback (outer : List (String × Bool)) (doc : DomTree)
    (ms : List MutationRecord) : DomTree :=
  List.foldl (applyMutation outer) doc ms

/-- The observer callback's control flow when the processing of a
record may raise a fault (an exception, modelled in `Except`): the
source wraps the loop body in no try/catch, so a fault thrown while
processing one record leaves the loop at once.  `step` is the per-record
processing; the concrete, total processing of the source is
`fun d m => Except.ok (applyMutation outer d m)`. -/
def observerCallbackE (step : DomTree → MutationRecord → Except String DomTree) :
    DomTree → List MutationRecord → Except String DomTree
  | d, [] => Except.ok d
  | d, m :: ms =>
    match step d m with
    | Except.ok d2 => observerCallbackE step d2 ms
    | Except.error e => Except.error e

theorem valueAt_element_cons (tag : String) (ed : Bool) (cs : List DomTree) (i : Nat)
    (p : List Nat) :
    valueAt (DomTree.element tag ed cs) (i :: p)
      = match cs[i]? with
        | some c => valueAt c p
        | none => none := by
  cases hc : cs[i]? <;> simp [valueAt, getAt, childAt, hc]

theorem isTextAt_element_cons (tag : String) (ed : Bool) (cs : List DomTree) (i : Nat)
    (p : List Nat) :
    isTextAt (DomTree.element tag ed cs) (i :: p)
      = match cs[i]? with
        | some c => isTextAt c p
        | none => false := by
  cases hc : cs[i]? <;> simp [isTextAt, getAt, childAt, hc]

theorem length_lt_of_getElem?_eq_some {cs : List DomTree} {j : Nat} {c : DomTree}
    (hc : cs[j]? = some c) : j < cs.length := by
  by_contra h
  push_neg at h
  rw [List.getElem?_eq_none h] at hc
  cases hc

theorem valueAt_set_ne :
    ∀ (q : List Nat) (d : DomTree) (p : List Nat) (s : String), p ≠ q →
      valueAt (setNodeValueAt d q s) p = valueAt d p := by
  intro q
  induction q with
  | nil =>
    intro d p s hp
    cases d with
    | element tag ed cs => simp [setNodeValueAt]
    | text v =>
      cases p with
      | nil => exact absurd rfl hp
      | cons i p2 => simp [setNodeValueAt, valueAt, getAt, childAt]
    | comment v =>
      cases p with
      | nil => exact absurd rfl hp
      | cons i p2 => simp [setNodeValueAt, valueAt, getAt, childAt]
  | cons j q2 ih =>
    intro d p s hp
    cases d with
    | text v => simp [setNodeValueAt]
    | comment v => simp [setNodeValueAt]
    | element tag ed cs =>
      cases hc : cs[j]? with
      | none => simp [setNodeValueAt, hc]
      | some c =>
        have hlt : j < cs.length := length_lt_of_getElem?_eq_some hc
        rw [show setNodeValueAt (DomTree.element tag ed cs) (j :: q2) s
          = DomTree.element tag ed (cs.set j (setNodeValueAt c q2 s)) from by
            simp [setNodeValueAt, hc]]
        cases p with
        | nil => simp [valueAt, getAt]
        | cons i p2 =>
          rw [valueAt_element_cons, valueAt_element_cons]
          rw [List.getElem?_set]
          by_cases hij : j = i
          · subst hij
            have hp2 : p2 ≠ q2 := by
              intro hcontra
              exact hp (by rw [hcontra])
            simp [hlt, hc, ih c p2 s hp2]
          · simp [hij]

theorem valueAt_set_self :
    ∀ (q : List Nat) (d : DomTree) (v s : String), valueAt d q = some v →
      valueAt (setNodeValueAt d q s) q = some s := by
  intro q
  induction q with
  | nil =>
    intro d v s hv
    cases d with
    | element tag ed cs => simp [valueAt, getAt] at hv
    | text w => simp [setNodeValueAt, valueAt, getAt]
    | comment w => simp [setNodeValueAt, valueAt, getAt]
  | cons j q2 ih =>
    intro d v s hv
    cases d with
    | text w => simp [valueAt, getAt, childAt] at hv
    | comment w => simp [valueAt, getAt, childAt] at hv
    | element tag ed cs =>
      rw [valueAt_element_cons] at hv
      cases hc : cs[j]? with
      | none => rw [hc] at hv; cases hv
      | some c =>
        rw [hc] at hv
        have hlt : j < cs.length := length_lt_of_getElem?_eq_some hc
        rw [show setNodeValueAt (DomTree.element tag ed cs) (j :: q2) s
          = DomTree.element tag ed (cs.set j (setNodeValueAt c q2 s)) from by
            simp [setNodeValueAt, hc]]
        rw [valueAt_element_cons, List.getElem?_set]
        simp [hlt, ih c v s hv]

theorem isTextAt_set :
    ∀ (q : List Nat) (d : DomTree) (p : List Nat) (s : String),
      isTextAt (setNodeValueAt d q s) p = isTextAt d p := by
  intro q
  induction q with
  | nil =>
    intro d p s
    cases d with
    | element tag ed cs => simp [setNodeValueAt]
    | text v =>
      cases p with
      | nil => simp [setNodeValueAt, isTextAt, getAt]
      | cons i p2 => simp [setNodeValueAt, isTextAt, getAt, childAt]
    | comment v =>
      cases p with
      | nil => simp [setNodeValueAt, isTextAt, getAt]
      | cons i p2 => simp [setNodeValueAt, isTextAt, getAt, childAt]
  | cons j q2 ih =>
    intro d p s
    cases d with
    | text v => simp [setNodeValueAt]
    | comment v => simp [setNodeValueAt]
    | element tag ed cs =>
      cases hc : cs[j]? with
      | none => simp [setNodeValueAt, hc]
      | some c =>
        have hlt : j < cs.length := length_lt_of_getElem?_eq_some hc
        rw [show setNodeValueAt (DomTree.element tag ed cs) (j :: q2) s
          = DomTree.element tag ed (cs.set j (setNodeValueAt c q2 s)) from by
            simp [setNodeValueAt, hc]]
        cases p with
        | nil => simp [isTextAt, getAt]
        | cons i p2 =>
          rw [isTextAt_element_cons, isTextAt_element_cons, List.getElem?_set]
          by_cases hij : j = i
          · subst hij
            simp [hlt, hc, ih c p2 s]
          · simp [hij]

theorem innerChain_set :
    ∀ (p : List Nat) (d : DomTree) (q : List Nat) (s : String),
      innerChain (setNodeValueAt d q s) p = innerChain d p := by
  intro p
  induction p with
  | nil => intro d q s; simp [innerChain]
  | cons i p2 ih =>
    intro d q s
    cases d with
    | text v =>
      cases q with
      | nil => simp [setNodeValueAt, innerChain]
      | cons j q2 => simp [setNodeValueAt]
    | comment v =>
      cases q with
      | nil => simp [setNodeValueAt, innerChain]
      | cons j q2 => simp [setNodeValueAt]
    | element tag ed cs =>
      cases q with
      | nil => simp [setNodeValueAt]
      | cons j q2 =>
        cases hc : cs[j]? with
        | none => simp [setNodeValueAt, hc]
        | some c =>
          have hlt : j < cs.length := length_lt_of_getElem?_eq_some hc
          rw [show setNodeValueAt (DomTree.element tag ed cs) (j :: q2) s
            = DomTree.element tag ed (cs.set j (setNodeValueAt c q2 s)) from by
              simp [setNodeValueAt, hc]]
          show (match (cs.set j (setNodeValueAt c q2 s))[i]? with
            | some c2 => innerChain c2 p2 ++ [(tag, ed)]
            | none => []) = _
          rw [List.getElem?_set]
          by_cases hij : j = i
          · subst hij
            simp only [innerChain, hlt, if_true, hc]
            rw [ih c q2 s]
          · simp only [innerChain, hij, if_false]

theorem shapeOfList_set :
    ∀ (cs : List DomTree) (j : Nat) (c c2 : DomTree), cs[j]? = some c →
      shapeOf c2 = shapeOf c → shapeOfList (cs.set j c2) = shapeOfList cs := by
  intro cs
  induction cs with
  | nil => intro j c c2 hc _; simp at hc
  | cons x xs ih =>
    intro j c c2 hc hs
    cases j with
    | zero =>
      simp only [List.getElem?_cons_zero, Option.some.injEq] at hc
      subst hc
      simp [shapeOfList, hs]
    | succ j2 =>
      simp only [List.getElem?_cons_succ] at hc
      simp only [List.set_cons_succ, shapeOfList]
      rw [ih j2 c c2 hc hs]

theorem shapeOf_set :
    ∀ (q : List Nat) (d : DomTree) (s : String), shapeOf (setNodeValueAt d q s) = shapeOf d := by
  intro q
  induction q with
  | nil => intro d s; cases d <;> simp [setNodeValueAt, shapeOf]
  | cons j q2 ih =>
    intro d s
    cases d with
    | text v => simp [setNodeValueAt]
    | comment v => simp [setNodeValueAt]
    | element tag ed cs =>
      cases hc : cs[j]? with
      | none => simp [setNodeValueAt, hc]
      | some c =>
        rw [show setNodeValueAt (DomTree.element tag ed cs) (j :: q2) s
          = DomTree.element tag ed (cs.set j (setNodeValueAt c q2 s)) from by
            simp [setNodeValueAt, hc]]
        simp only [shapeOf]
        rw [shapeOfList_set cs j c _ hc (ih c s)]

theorem allTextPathsList_set :
    ∀ (cs : List DomTree) (j : Nat) (c c2 : DomTree) (i : Nat), cs[j]? = some c →
      allTextPaths c2 = allTextPaths c → allTextPathsList (cs.set j c2) i = allTextPathsList cs i := by
  intro cs
  induction cs with
  | nil => intro j c c2 i hc _; simp at hc
  | cons x xs ih =>
    intro j c c2 i hc hs
    cases j with
    | zero =>
      simp only [List.getElem?_cons_zero, Option.some.injEq] at hc
      subst hc
      simp [allTextPathsList, hs]
    | succ j2 =>
      simp only [List.getElem?_cons_succ] at hc
      simp only [List.set_cons_succ, allTextPathsList]
      rw [ih j2 c c2 (i + 1) hc hs]

theorem allTextPaths_set :
    ∀ (q : List Nat) (d : DomTree) (s : String),
      allTextPaths (setNodeValueAt d q s) = allTextPaths d := by
  intro q
  induction q with
  | nil => intro d s; cases d <;> simp [setNodeValueAt, allTextPaths]
  | cons j q2 ih =>
    intro d s
    cases d with
    | text v => simp [setNodeValueAt]
    | comment v => simp [setNodeValueAt]
    | element tag ed cs =>
      cases hc : cs[j]? with
      | none => simp [setNodeValueAt, hc]
      | some c =>
        rw [show setNodeValueAt (DomTree.element tag ed cs) (j :: q2) s
          = DomTree.element tag ed (cs.set j (setNodeValueAt c q2 s)) from by
            simp [setNodeValueAt, hc]]
        simp only [allTextPaths]
        exact allTextPathsList_set cs j c _ 0 hc (ih c s)

theorem walkerTextPaths_set :
    ∀ (q : List Nat) (d : DomTree) (s : String),
      walkerTextPaths (setNodeValueAt d q s) = walkerTextPaths d := by
  intro q d s
  cases d with
  | text v => cases q <;> simp [setNodeValueAt, walkerTextPaths]
  | comment v => cases q <;> simp [setNodeValueAt, walkerTextPaths]
  | element tag ed cs =>
    cases q with
    | nil => simp [setNodeValueAt]
    | cons j q2 =>
      cases hc : cs[j]? with
      | none => simp [setNodeValueAt, hc]
      | some c =>
        rw [show setNodeValueAt (DomTree.element tag ed cs) (j :: q2) s
          = DomTree.element tag ed (cs.set j (setNodeValueAt c q2 s)) from by
            simp [setNodeValueAt, hc]]
        simp only [walkerTextPaths]
        exact allTextPathsList_set cs j c _ 0 hc (allTextPaths_set q2 c s)

theorem rootExcluded_set :
    ∀ (q : List Nat) (d : DomTree) (s : String),
      rootExcluded (setNodeValueAt d q s) = rootExcluded d := by
  intro q d s
  cases d with
  | text v => cases q <;> simp [setNodeValueAt, rootExcluded]
  | comment v => cases q <;> simp [setNodeValueAt, rootExcluded]
  | element tag ed cs =>
    cases q with
    | nil => simp [setNodeValueAt]
    | cons j q2 =>
      cases hc : cs[j]? with
      | none => simp [setNodeValueAt, hc]
      | some c =>
        rw [show setNodeValueAt (DomTree.element tag ed cs) (j :: q2) s
          = DomTree.element tag ed (cs.set j (setNodeValueAt c q2 s)) from by
            simp [setNodeValueAt, hc]]
        simp [rootExcluded]

theorem getAt_set_view :
    ∀ (p2 : List Nat) (d : DomTree) (q : List Nat) (s : String),
      (getAt (setNodeValueAt d q s) p2).map (fun t => (rootExcluded t, walkerTextPaths t))
        = (getAt d p2).map (fun t => (rootExcluded t, walkerTextPaths t)) := by
  intro p2
  induction p2 with
  | nil =>
    intro d q s
    show Option.map _ (some (setNodeValueAt d q s)) = Option.map _ (some d)
    simp only [Option.map_some']
    rw [rootExcluded_set q d s, walkerTextPaths_set q d s]
  | cons i p22 ih =>
    intro d q s
    cases d with
    | text v => cases q <;> simp [setNodeValueAt, getAt, childAt]
    | comment v => cases q <;> simp [setNodeValueAt, getAt, childAt]
    | element tag ed cs =>
      cases q with
      | nil => simp [setNodeValueAt]
      | cons j q2 =>
        cases hc : cs[j]? with
        | none => simp [setNodeValueAt, hc]
        | some c =>
          have hlt : j < cs.length := length_lt_of_getElem?_eq_some hc
          rw [show setNodeValueAt (DomTree.element tag ed cs) (j :: q2) s
            = DomTree.element tag ed (cs.set j (setNodeValueAt c q2 s)) from by
              simp [setNodeValueAt, hc]]
          show ((match (cs.set j (setNodeValueAt c q2 s))[i]? with
            | some c2 => getAt c2 p22
            | none => none).map _) = ((match cs[i]? with
            | some c2 => getAt c2 p22
            | none => none).map _)
          rw [List.getElem?_set]
          by_cases hij : j = i
          · subst hij
            simp only [hlt, if_true, hc]
            exact ih c q2 s
          · simp only [hij, if_false]

theorem collectNodes_set (d : DomTree) (q : List Nat) (s : String) (q2 : List Nat) :
    collectNodes (setNodeValueAt d q s) q2 = collectNodes d q2 := by
  have h := getAt_set_view q2 d q s
  unfold collectNodes
  cases h1 : getAt d q2 with
  | none =>
    cases h2 : getAt (setNodeValueAt d q s) q2 with
    | none => rfl
    | some t =>
      rw [h1, h2] at h
      simp at h
  | some t =>
    cases h2 : getAt (setNodeValueAt d q s) q2 with
    | none =>
      rw [h1, h2] at h
      simp at h
    | some t2 =>
      rw [h1, h2] at h
      simp only [Option.map_some', Option.some.injEq, Prod.mk.injEq] at h
      show (walkerTextPaths t2).map (fun r => q2 ++ r) = (walkerTextPaths t).map (fun r => q2 ++ r)
      rw [h.2]

/-- Case analysis of `checkAndReplaceInTextNode`: either it changes
nothing at all (filtered out, no CharacterData target, or the rewritten
value equals the original), or the target's value matched, the filter
passed, and exactly that value was written. -/
theorem checkAndReplaceAt_eq_or_set (outer : List (String × Bool)) (d : DomTree) (q : List Nat) :
    checkAndReplaceAt outer d q = d ∨
    ∃ v, valueAt d q = some v ∧ shouldSkipNode (innerChain d q ++ outer) = false ∧
      rewriteStr v ≠ v ∧ checkAndReplaceAt outer d q = setNodeValueAt d q (rewriteStr v) := by
  unfold checkAndReplaceAt
  cases hv : valueAt d q with
  | none => left; rfl
  | some v =>
    by_cases hs : shouldSkipNode (innerChain d q ++ outer) = true
    · left; simp [hs]
    · have hs2 : shouldSkipNode (innerChain d q ++ outer) = false := by simpa using hs
      by_cases hr : rewriteStr v = v
      · left; simp [hs2, hr]
      · right; exact ⟨v, rfl, hs2, hr, by simp [hs2, hr]⟩

theorem collectNodes_checkAndReplaceAt (outer : List (String × Bool)) (d : DomTree)
    (pth q2 : List Nat) :
    collectNodes (checkAndReplaceAt outer d pth) q2 = collectNodes d q2 := by
  rcases checkAndReplaceAt_eq_or_set outer d pth with h | ⟨v, _, _, _, h⟩
  · rw [h]
  · rw [h, collectNodes_set]

/-- What every operation of the script guarantees between the document
before (`d`) and after (`d2`): the shape is unchanged (no structural
mutation), ancestor chains and node kinds are untouched, and each
CharacterData value is either kept verbatim or — only when its node
passes the Eligibility Filter — replaced by its rewriting. -/
def TextKept (outer : List (String × Bool)) (d d2 : DomTree) : Prop :=
  shapeOf d2 = shapeOf d ∧
  (∀ p, innerChain d2 p = innerChain d p) ∧
  (∀ p, isTextAt d2 p = isTextAt d p) ∧
  (∀ p v, valueAt d p = some v →
    valueAt d2 p = some v ∨
      (shouldSkipNode (innerChain d p ++ outer) = false ∧ valueAt d2 p = some (rewriteStr v)))

theorem textKept_refl (outer : List (String × Bool)) (d : DomTree) : TextKept outer d d :=
  ⟨rfl, fun _ => rfl, fun _ => rfl, fun _ _ hv => Or.inl hv⟩

theorem textKept_trans {outer : List (String × Bool)} {d d2 d3 : DomTree}
    (h12 : TextKept outer d d2) (h23 : TextKept outer d2 d3) : TextKept outer d d3 := by
  obtain ⟨hs12, hc12, ht12, hv12⟩ := h12
  obtain ⟨hs23, hc23, ht23, hv23⟩ := h23
  refine ⟨hs23.trans hs12, fun p => (hc23 p).trans (hc12 p),
    fun p => (ht23 p).trans (ht12 p), fun p v hv => ?_⟩
  rcases hv12 p v hv with h | ⟨hskip, h⟩
  · rcases hv23 p v h with h2 | ⟨hskip2, h2⟩
    · exact Or.inl h2
    · rw [hc12 p] at hskip2
      exact Or.inr ⟨hskip2, h2⟩
  · rcases hv23 p (rewriteStr v) h with h2 | ⟨_, h2⟩
    · exact Or.inr ⟨hskip, h2⟩
    · rw [rewriteStr_idem] at h2
      exact Or.inr ⟨hskip, h2⟩

theorem textKept_checkAndReplaceAt (outer : List (String × Bool)) (d : DomTree) (q : List Nat) :
    TextKept outer d (checkAndReplaceAt outer d q) := by
  rcases checkAndReplaceAt_eq_or_set outer d q with h | ⟨v, hv, hskip, _, h⟩
  · rw [h]; exact textKept_refl outer d
  · rw [h]
    refine ⟨shapeOf_set q d _, fun p => innerChain_set p d q _,
      fun p => isTextAt_set q d p _, fun p w hw => ?_⟩
    by_cases hpq : p = q
    · subst hpq
      have hwv : v = w := Option.some.inj (hv.symm.trans hw)
      right
      refine ⟨hskip, ?_⟩
      rw [valueAt_set_self p d v _ hv, hwv]
    · left
      rw [valueAt_set_ne q d p _ hpq]
      exact hw

theorem textKept_foldl {α : Type} (outer : List (String × Bool)) (f : DomTree → α → DomTree)
    (hf : ∀ d a, TextKept outer d (f d a)) :
    ∀ (l : List α) (d : DomTree), TextKept outer d (List.foldl f d l) := by
  intro l
  induction l with
  | nil => intro d; exact textKept_refl outer d
  | cons a l2 ih =>
    intro d
    rw [List.foldl_cons]
    exact textKept_trans (hf d a) (ih (f d a))

theorem textKept_processNodesAt (outer : List (String × Bool)) (doc : DomTree) (q : List Nat) :
    TextKept outer doc (processNodesAt outer doc q) := by
  unfold processNodesAt
  cases getAt doc q with
  | none => exact textKept_refl outer doc
  | some sub =>
    by_cases hx : rootExcluded sub = true
    · simp only [hx, if_true]
      exact textKept_refl outer doc
    · simp only [hx]
      exact textKept_foldl outer _ (fun d pth => textKept_checkAndReplaceAt outer d pth) _ doc

theorem textKept_processNodes (outer : List (String × Bool)) (doc : DomTree)
    (r : Option (List Nat)) : TextKept outer doc (processNodes outer doc r) := by
  cases r with
  | none => exact textKept_refl outer doc
  | some q => exact textKept_processNodesAt outer doc q

theorem textKept_applyMutation (outer : List (String × Bool)) (doc : DomTree)
    (m : MutationRecord) : TextKept outer doc (applyMutation outer doc m) := by
  cases m with
  | childList added =>
    exact textKept_foldl outer _ (fun d q => textKept_processNodesAt outer d q) added doc
  | characterData q => exact textKept_checkAndReplaceAt outer doc q

theorem textKept_observerCallback (outer : List (String × Bool)) (doc : DomTree)
    (ms : List MutationRecord) : TextKept outer doc (observerCallback outer doc ms) :=
  textKept_foldl outer _ (fun d m => textKept_applyMutation outer d m) ms doc

theorem valueAt_of_getAt_text {d : DomTree} {p : List Nat} {v : String}
    (h : getAt d p = some (DomTree.text v)) : valueAt d p = some v := by
  unfold valueAt
  rw [h]

theorem isTextAt_of_getAt_text {d : DomTree} {p : List Nat} {v : String}
    (h : getAt d p = some (DomTree.text v)) : isTextAt d p = true := by
  unfold isTextAt
  rw [h]

theorem getAt_text_of_isTextAt : ∀ (d : DomTree) (p : List Nat) (v : String),
    isTextAt d p = true → valueAt d p = some v → getAt d p = some (DomTree.text v) := by
  intro d p v ht hv
  unfold isTextAt at ht
  unfold valueAt at hv
  cases hg : getAt d p with
  | none => rw [hg] at ht; cases ht
  | some t =>
    rw [hg] at ht hv
    cases t with
    | text w => rw [Option.some.inj hv]
    | element tag ed cs => cases ht
    | comment w => cases ht

theorem collectNodes_foldl (outer : List (String × Bool)) (q2 : List Nat) :
    ∀ (l : List (List Nat)) (d : DomTree),
      collectNodes (List.foldl (fun d2 pth => checkAndReplaceAt outer d2 pth) d l) q2
        = collectNodes d q2 := by
  intro l
  induction l with
  | nil => intro d; rfl
  | cons pth l2 ih =>
    intro d
    rw [List.foldl_cons, ih (checkAndReplaceAt outer d pth),
      collectNodes_checkAndReplaceAt outer d pth q2]

/-- Claim C1: for every input string, the Rewrite Engine returns the
input unchanged exactly when the string contains no case-insensitive
occurrence of "Gulf of America" (a string has an occurrence exactly
when it splits around a case-insensitive variant of the phrase), and
its output stands in the `RewriteSpec` relation to the input: every
non-overlapping occurrence — spanning the whole string, touching its
boundaries, or several in one string — is replaced by
"Gulf of Mexico" and every other position is kept. -/
theorem c1_rewrite_engine (s : List Char) :
    RewriteSpec s (rewriteList s) ∧
    (rewriteList s = s ↔ hasMatchCI s = false) ∧
    (hasMatchCI s = true ↔ ∃ a u b, s = a ++ u ++ b ∧ matchesPhraseCI u = true) :=
  ⟨rewriteSpec_rewriteList s, rewriteList_eq_self_iff s, hasMatchCI_iff_parts s⟩

theorem c1_witness :
    rewriteList "No occurrence in this string.".data = "No occurrence in this string.".data :=
  (c1_rewrite_engine _).2.1.mpr (by decide)

/-- Claim C2: a text unit with an ancestor that the Eligibility Filter
rejects (excluded tag, compared case-normalized, or contentEditable) is
never rewritten by any operation — neither by a sweep (initial or over
an added subtree) nor by the characterData handler — and the walk
returns excluded at the first matching ancestor, whatever lies above
it.  The exclusion set is exactly the source's `EXCLUDED_TAGS`. -/
theorem c2_exclusion_filter :
    (∀ (outer : List (String × Bool)) (doc : DomTree) (ms : List MutationRecord)
        (p : List Nat) (v : String),
      getAt doc p = some (DomTree.text v) →
      shouldSkipNode (innerChain doc p ++ outer) = true →
      getAt (observerCallback outer doc ms) p = some (DomTree.text v)) ∧
    (∀ (outer : List (String × Bool)) (doc : DomTree) (r : Option (List Nat))
        (p : List Nat) (v : String),
      getAt doc p = some (DomTree.text v) →
      shouldSkipNode (innerChain doc p ++ outer) = true →
      getAt (processNodes outer doc r) p = some (DomTree.text v)) ∧
    (∀ (tag : String) (ed : Bool) (rest : List (String × Bool)),
      (EXCLUDED_TAGS.contains (upcase tag) || ed) = true →
      shouldSkipNode ((tag, ed) :: rest) = true) ∧
    EXCLUDED_TAGS = ["SCRIPT", "STYLE", "NOSCRIPT", "TEXTAREA", "INPUT",
      "IFRAME", "CANVAS", "CODE", "SVG", "MATH"] := by
  refine ⟨?_, ?_, ?_, rfl⟩
  · intro outer doc ms p v hg hskip
    obtain ⟨_, _, htext, hval⟩ := textKept_observerCallback outer doc ms
    rcases hval p v (valueAt_of_getAt_text hg) with h | ⟨hns, _⟩
    · refine getAt_text_of_isTextAt _ p v ?_ h
      rw [htext p]
      exact isTextAt_of_getAt_text hg
    · rw [hskip] at hns
      cases hns
  · intro outer doc r p v hg hskip
    obtain ⟨_, _, htext, hval⟩ := textKept_processNodes outer doc r
    rcases hval p v (valueAt_of_getAt_text hg) with h | ⟨hns, _⟩
    · refine getAt_text_of_isTextAt _ p v ?_ h
      rw [htext p]
      exact isTextAt_of_getAt_text hg
    · rw [hskip] at hns
      cases hns
  · intro tag ed rest h
    simp only [Bool.or_eq_true] at h
    rcases h with h | h
    · simp only [shouldSkipNode, h, if_true]
    · by_cases hc : EXCLUDED_TAGS.contains (upcase tag) = true
      · simp only [shouldSkipNode, hc, if_true]
      · simp only [shouldSkipNode, hc, if_false, h, if_true]
        simp

def c2doc : DomTree :=
  DomTree.element "HTML" false
    [DomTree.element "BODY" false
      [DomTree.element "SCRIPT" false [DomTree.text "Gulf of America inside a script"]]]

theorem c2_witness :
    getAt (observerCallback [] c2doc [MutationRecord.characterData [0, 0, 0]]) [0, 0, 0]
      = some (DomTree.text "Gulf of America inside a script") :=
  c2_exclusion_filter.1 [] c2doc [MutationRecord.characterData [0, 0, 0]] [0, 0, 0]
    "Gulf of America inside a script" rfl rfl

/-- Claim C3: the Rewrite Engine is idempotent on every string, because
its output never contains a case-insensitive occurrence of the search
phrase — the replacement text re-creates none, not even across the
boundaries between replaced and unreplaced segments. -/
theorem c3_idempotent (s : List Char) :
    rewriteList (rewriteList s) = rewriteList s ∧
    hasMatchCI (rewriteList s) = false ∧
    (∀ t : String, rewriteStr (rewriteStr t) = rewriteStr t) :=
  ⟨rewriteList_idem s, hasMatchCI_rewriteList s, rewriteStr_idem⟩

/-- Claim C4: `checkAndReplaceInTextNode` writes the unit's value only
when the rewritten string differs from the current value: when they
agree — in particular on every already-rewritten value — the document
is left entirely unchanged (this is what breaks the
notify-rewrite-notify cycle), and whenever the document does change,
the filter had passed, the rewritten value differed, and exactly that
value now stands at the target. -/
theorem c4_write_guard (outer : List (String × Bool)) (d : DomTree) (q : List Nat) (v : String)
    (hv : valueAt d q = some v) :
    (rewriteStr v = v → checkAndReplaceAt outer d q = d) ∧
    (∀ u : String, v = rewriteStr u → checkAndReplaceAt outer d q = d) ∧
    (checkAndReplaceAt outer d q ≠ d →
      shouldSkipNode (innerChain d q ++ outer) = false ∧ rewriteStr v ≠ v ∧
      valueAt (checkAndReplaceAt outer d q) q = some (rewriteStr v)) := by
  have h1 : rewriteStr v = v → checkAndReplaceAt outer d q = d := by
    intro hr
    unfold checkAndReplaceAt
    rw [hv]
    by_cases hs : shouldSkipNode (innerChain d q ++ outer) = true <;> simp [hs, hr]
  refine ⟨h1, fun u hu => h1 (by rw [hu, rewriteStr_idem]), fun hne => ?_⟩
  rcases checkAndReplaceAt_eq_or_set outer d q with h | ⟨w, hw, hskip, hrw, h⟩
  · exact absurd h hne
  · have hwv : w = v := Option.some.inj (hw.symm.trans hv)
    subst hwv
    exact ⟨hskip, hrw, by rw [h]; exact valueAt_set_self q d w _ hw⟩

def c4doc : DomTree := DomTree.element "P" false [DomTree.text "Gulf of Mexico"]

theorem c4_witness : checkAndReplaceAt [] c4doc [0] = c4doc :=
  (c4_write_guard [] c4doc [0] "Gulf of Mexico" rfl).1 (by decide)

def c5doc : DomTree := DomTree.element "BODY" false [DomTree.text "Gulf of America"]

/-- Claim C5, evidence of the code bug: a childList record whose added
node is a bare text unit (path `[0]`, value "Gulf of America") leaves
the document completely unchanged, although the unit passes the
Eligibility Filter and its value matches — `processNodes` walks a
`TreeWalker` rooted at the added node, and `nextNode()` never returns
the walker's own root, so a text-node root yields no candidates.  The
same unit, reached instead as the target of a characterData record, is
rewritten, which isolates the added-nodes sweep as the part that
misses it. -/
theorem c5_bare_text_unprocessed :
    observerCallback [] c5doc [MutationRecord.childList [[0]]] = c5doc ∧
    shouldSkipNode (innerChain c5doc [0] ++ []) = false ∧
    rewriteStr "Gulf of America" = "Gulf of Mexico" ∧
    observerCallback [] c5doc [MutationRecord.characterData [0]]
      = DomTree.element "BODY" false [DomTree.text "Gulf of Mexico"] :=
  ⟨rfl, rfl, by decide, rfl⟩

/-- Claim C6, counterexample: the observer callback installs no
try/catch around its `for` loop, so a fault raised while processing a
record propagates out of the callback instead of being caught and
discarded — here a one-record batch whose processing faults makes the
whole callback fault. -/
theorem c6_counterexample :
    observerCallbackE (fun _ _ => Except.error "TypeError") (DomTree.text "")
        [MutationRecord.characterData []]
      = Except.error "TypeError" := rfl

/-- Claim C6, amended: the change-feed callback performs no fault
handling.  If processing a record raises a fault, the fault propagates
out of the callback and the remaining records of that batch go
unprocessed.  (The per-record processing the source actually performs
is total, so the modelled callback itself never raises: the second
conjunct shows the fault-capable loop run with the source's processing
always returns `ok` with the usual result.) -/
theorem c6_no_catch :
    (∀ (step : DomTree → MutationRecord → Except String DomTree) (d : DomTree)
        (m : MutationRecord) (ms : List MutationRecord) (e : String),
      step d m = Except.error e → observerCallbackE step d (m :: ms) = Except.error e) ∧
    (∀ (outer : List (String × Bool)) (d : DomTree) (ms : List MutationRecord),
      observerCallbackE (fun d2 m => Except.ok (applyMutation outer d2 m)) d ms
        = Except.ok (observerCallback outer d ms)) := by
  constructor
  · intro step d m ms e he
    unfold observerCallbackE
    rw [he]
  · intro outer d ms
    induction ms generalizing d with
    | nil => rfl
    | cons m ms2 ih =>
      show observerCallbackE _ (applyMutation outer d m) ms2 = _
      rw [ih (applyMutation outer d m)]
      rfl

theorem c6_witness :
    observerCallbackE (fun _ _ => Except.error "SecurityError") (DomTree.text "x")
        [MutationRecord.characterData [], MutationRecord.childList []]
      = Except.error "SecurityError" :=
  c6_no_catch.1 (fun _ _ => Except.error "SecurityError") (DomTree.text "x")
    (MutationRecord.characterData []) [MutationRecord.childList []] "SecurityError" rfl

/-- Claim C7: the sweep is two-phase.  For every non-excluded root, the
sweep equals a fold of the per-node rewrite over the candidate list
collected from the document before any mutation; one rewrite step never
changes the collected candidate list of any root (in-place value
changes cannot perturb the traversal); and the whole sweep leaves every
root's candidate list as it was. -/
theorem c7_two_phase :
    (∀ (outer : List (String × Bool)) (doc : DomTree) (q : List Nat) (sub : DomTree),
      getAt doc q = some sub → rootExcluded sub = false →
      processNodesAt outer doc q
        = List.foldl (fun d pth => checkAndReplaceAt outer d pth) doc (collectNodes doc q)) ∧
    (∀ (outer : List (String × Bool)) (d : DomTree) (pth q2 : List Nat),
      collectNodes (checkAndReplaceAt outer d pth) q2 = collectNodes d q2) ∧
    (∀ (outer : List (String × Bool)) (doc : DomTree) (q q2 : List Nat),
      collectNodes (processNodesAt outer doc q) q2 = collectNodes doc q2) := by
  refine ⟨?_, collectNodes_checkAndReplaceAt, ?_⟩
  · intro outer doc q sub hget hexc
    unfold processNodesAt
    rw [hget]
    show (if rootExcluded sub = true then doc
      else List.foldl (fun d pth => checkAndReplaceAt outer d pth) doc (collectNodes doc q))
      = List.foldl (fun d pth => checkAndReplaceAt outer d pth) doc (collectNodes doc q)
    rw [hexc]
    simp
  · intro outer doc q q2
    unfold processNodesAt
    cases getAt doc q with
    | none => rfl
    | some sub =>
      by_cases hx : rootExcluded sub = true
      · simp only [hx, if_true]
      · simp only [hx, if_false]
        exact collectNodes_foldl outer q2 (collectNodes doc q) doc

def c7doc : DomTree := DomTree.element "P" false [DomTree.text "around the Gulf of America coast"]

theorem c7_witness :
    processNodesAt [] c7doc []
      = List.foldl (fun d pth => checkAndReplaceAt [] d pth) c7doc (collectNodes c7doc []) :=
  c7_two_phase.1 [] c7doc [] c7doc rfl rfl

def c8doc : DomTree := DomTree.element "BODY" false [DomTree.comment "see the Gulf of America"]

/-- Claim C8, counterexample: a characterData record may target a
comment node — also a CharacterData node — and
`checkAndReplaceInTextNode` performs no node-type check, so the
callback rewrites the comment's `nodeValue`.  A node that is not a text
unit changes, against the claim that only nodeValue fields of text
units may change. -/
theorem c8_counterexample :
    getAt c8doc [0] = some (DomTree.comment "see the Gulf of America") ∧
    isTextAt c8doc [0] = false ∧
    observerCallback [] c8doc [MutationRecord.characterData [0]]
      = DomTree.element "BODY" false [DomTree.comment "see the Gulf of Mexico"] :=
  ⟨rfl, rfl, rfl⟩

/-- Claim C8, amended: every operation of the script preserves the
document's shape — node set, parent/child links, tags, editability
flags and node kinds are all unchanged — and only the `nodeValue`
fields of CharacterData nodes may change (text units; also a comment
node when a characterData record targets one), each either kept
verbatim or replaced by its rewriting. -/
theorem c8_frame :
    (∀ (outer : List (String × Bool)) (doc : DomTree) (ms : List MutationRecord),
      shapeOf (observerCallback outer doc ms) = shapeOf doc) ∧
    (∀ (outer : List (String × Bool)) (doc : DomTree) (r : Option (List Nat)),
      shapeOf (processNodes outer doc r) = shapeOf doc) ∧
    (∀ (outer : List (String × Bool)) (doc : DomTree) (ms : List MutationRecord)
        (p : List Nat) (v : String),
      valueAt doc p = some v →
      valueAt (observerCallback outer doc ms) p = some v ∨
        valueAt (observerCallback outer doc ms) p = some (rewriteStr v)) := by
  refine ⟨fun outer doc ms => (textKept_observerCallback outer doc ms).1,
    fun outer doc r => (textKept_processNodes outer doc r).1,
    fun outer doc ms p v hv => ?_⟩
  rcases (textKept_observerCallback outer doc ms).2.2.2 p v hv with h | ⟨_, h⟩
  · exact Or.inl h
  · exact Or.inr h

def c8doc2 : DomTree := DomTree.element "DIV" false [DomTree.text "Gulf of America here"]

theorem c8_witness :
    valueAt (observerCallback [] c8doc2 [MutationRecord.characterData [0]]) [0]
      = some "Gulf of America here" ∨
    valueAt (observerCallback [] c8doc2 [MutationRecord.characterData [0]]) [0]
      = some (rewriteStr "Gulf of America here") :=
  c8_frame.2.2 [] c8doc2 [MutationRecord.characterData [0]] [0] "Gulf of America here" rfl

/-- Claim C9: the Eligibility Filter terminates on every finite
ancestor chain — the instrumented walk, given at least one unit of
fuel per ancestor, finishes with the boolean the source's loop
returns — and a node with an empty parent chain is treated as
non-excluded. -/
theorem c9_walk_terminates :
    (∀ (chain : List (String × Bool)) (fuel : Nat), chain.length ≤ fuel →
      shouldSkipNodeFuel fuel chain = some (shouldSkipNode chain)) ∧
    shouldSkipNode [] = false := by
  refine ⟨?_, rfl⟩
  intro chain
  induction chain with
  | nil => intro fuel _; cases fuel <;> rfl
  | cons e rest ih =>
    intro fuel hf
    cases fuel with
    | zero => simp at hf
    | succ n =>
      have hr : rest.length ≤ n := by simpa using hf
      show (if EXCLUDED_TAGS.contains (upcase e.1) then some true
        else if e.2 then some true else shouldSkipNodeFuel n rest)
        = some (if EXCLUDED_TAGS.contains (upcase e.1) then true
          else if e.2 then true else shouldSkipNode rest)
      cases EXCLUDED_TAGS.contains (upcase e.1)
      · cases e.2
        · simpa using ih n hr
        · simp
      · simp

theorem c9_witness :
    shouldSkipNodeFuel 3 [("DIV", false), ("BODY", false)]
      = some (shouldSkipNode [("DIV", false), ("BODY", false)]) :=
  c9_walk_terminates.1 [("DIV", false), ("BODY", false)] 3 (by decide)

/-- Claim C10: calling `processNodes` with a null or undefined root
(modelled by `none`) is a total no-op: the document is returned as it
is, and in particular the value of every unit everywhere is untouched. -/
theorem c10_null_root :
    (∀ (outer : List (String × Bool)) (doc : DomTree), processNodes outer doc none = doc) ∧
    (∀ (outer : List (String × Bool)) (doc : DomTree) (p : List Nat),
      valueAt (processNodes outer doc none) p = valueAt doc p) :=
  ⟨fun _ _ => rfl, fun _ _ _ => rfl⟩
